import Mathlib

/-!
# enviroLogger: the Node-RED node of `src/enviroLogger.js`

The node spawns `script.py` through python-shell and installs two listeners on the
shell: on `'message'` it runs `JSON.parse(messageString.replace(/'/g, '"'))` and passes
`{payload: results}` to `node.send`; on `'error'` it passes the error to `node.error`.

JavaScript strings are sequences of UTF-16 code units, here lists of naturals.
`String.prototype.replace` with the global pattern `/'/g` and `JSON.parse` are language
built-ins; they are embedded from their definition in ECMA-262 / ECMA-404.
-/

namespace EnviroLogger

/-! ## JavaScript strings -/

/-- A JavaScript string: its UTF-16 code units. -/
abbrev JSString := List Nat

/-- The code units of one Unicode scalar value (a surrogate pair above the BMP). -/
def utf16Char (c : Char) : List Nat :=
  if c.toNat < 65536 then [c.toNat]
  else [55296 + (c.toNat - 65536) / 1024, 56320 + (c.toNat - 65536) % 1024]

/-- The JavaScript string with the text of a Lean string. -/
def utf16 (s : String) : JSString := s.toList.flatMap utf16Char

/-- U+0027, the single quote. -/
abbrev apostrophe : Nat := 39

/-- U+0022, the double quote. -/
abbrev quotationMark : Nat := 34

/-- The replacement `/'/g → '"'` on one code unit. -/
def replaceUnit (c : Nat) : Nat := if c = apostrophe then quotationMark else c

/-- The call `messageString.replace(/'/g, '"')` (enviroLogger.js line 12): every match of the
one-character pattern is replaced, the other code units are copied. -/
def replaceQuotes (messageString : JSString) : JSString := messageString.map replaceUnit

/-! ## JSON values and `JSON.parse` -/

/-- The values `JSON.parse` builds. A Number is kept as the literal that denotes it, so no
floating-point rounding is modelled; an object is the list of its own properties, each name
once, in the order in which the names first occur in the text (JavaScript enumerates
integer-like names first; the order of the properties plays no part in what is proved). -/
inductive Value where
  | null
  | bool (b : Bool)
  | number (literal : JSString)
  | string (s : JSString)
  | array (elements : List Value)
  | object (properties : List (JSString × Value))

/-- The result of a parsing function: a value with the unread input, a syntax error, or the
recursion budget ran out. -/
inductive Parsed (α : Type) where
  | ok (a : α) (rest : JSString)
  | syntaxError
  | outOfFuel

/-- Apply a function to the value of a successful result. -/
def Parsed.map {α β : Type} (f : α → β) : Parsed α → Parsed β
  | .ok a rest => .ok (f a) rest
  | .syntaxError => .syntaxError
  | .outOfFuel => .outOfFuel

/-- Continue parsing on the unread input of a successful result. -/
def Parsed.bind {α β : Type} (p : Parsed α) (f : α → JSString → Parsed β) : Parsed β :=
  match p with
  | .ok a rest => f a rest
  | .syntaxError => .syntaxError
  | .outOfFuel => .outOfFuel

/-- JSON white space: tab, line feed, carriage return, space. -/
def isWhiteSpace (c : Nat) : Bool := c = 9 || c = 10 || c = 13 || c = 32

/-- Drop leading white space. -/
def skipWhiteSpace : JSString → JSString
  | [] => []
  | c :: rest => if isWhiteSpace c then skipWhiteSpace rest else c :: rest

/-- The decimal digits `0`..`9`. -/
def isDigit (c : Nat) : Bool := 48 ≤ c && c ≤ 57

/-- The value of a hexadecimal digit, in either case. -/
def hexValue (c : Nat) : Option Nat :=
  if 48 ≤ c ∧ c ≤ 57 then some (c - 48)
  else if 97 ≤ c ∧ c ≤ 102 then some (c - 87)
  else if 65 ≤ c ∧ c ≤ 70 then some (c - 55)
  else none

/-- The code unit denoted by a single-character escape: one of `"`, `\`, `/`, `b`, `f`, `n`,
`r`, `t` after a backslash. -/
def escapeValue (c : Nat) : Option Nat :=
  if c = 34 then some 34
  else if c = 92 then some 92
  else if c = 47 then some 47
  else if c = 98 then some 8
  else if c = 102 then some 12
  else if c = 110 then some 10
  else if c = 114 then some 13
  else if c = 116 then some 9
  else none

/-- The characters of a string literal, read after its opening quotation mark up to and
including the closing one. A quotation mark closes the string, a backslash starts an escape
(`\uXXXX` or a single character), a control character below U+0020 is an error, every other
code unit stands for itself. -/
def parseChars : JSString → Parsed JSString
  | [] => .syntaxError
  | c :: rest =>
    if c = 34 then .ok [] rest
    else if c = 92 then
      match rest with
      | [] => .syntaxError
      | e :: rest1 =>
        if e = 117 then
          match rest1 with
          | h1 :: h2 :: h3 :: h4 :: rest2 =>
            match hexValue h1, hexValue h2, hexValue h3, hexValue h4 with
            | some a, some b, some c, some d =>
              (parseChars rest2).map (fun s => (((a * 16 + b) * 16 + c) * 16 + d) :: s)
            | _, _, _, _ => .syntaxError
          | _ => .syntaxError
        else
          match escapeValue e with
          | some u => (parseChars rest1).map (fun s => u :: s)
          | none => .syntaxError
    else if c < 32 then .syntaxError
    else (parseChars rest).map (fun s => c :: s)

/-- The longest run of leading digits, and what follows it. -/
def takeDigits : JSString → JSString × JSString
  | [] => ([], [])
  | c :: rest =>
    if isDigit c then (c :: (takeDigits rest).1, (takeDigits rest).2)
    else ([], c :: rest)

/-- One or more digits. -/
def parseDigits (s : JSString) : Parsed JSString :=
  match takeDigits s with
  | ([], _) => .syntaxError
  | (d :: ds, rest) => .ok (d :: ds) rest

/-- The integer part of a number: `0`, or a non-zero digit followed by digits. -/
def parseInt : JSString → Parsed JSString
  | [] => .syntaxError
  | c :: rest =>
    if c = 48 then .ok [48] rest
    else if isDigit c then .ok (c :: (takeDigits rest).1) (takeDigits rest).2
    else .syntaxError

/-- The optional fraction: `.` and one or more digits. -/
def parseFraction : JSString → Parsed JSString
  | [] => .ok [] []
  | c :: rest =>
    if c = 46 then (parseDigits rest).map (fun ds => 46 :: ds)
    else .ok [] (c :: rest)

/-- The optional exponent: `e` or `E`, an optional sign, one or more digits. -/
def parseExponent : JSString → Parsed JSString
  | [] => .ok [] []
  | c :: rest =>
    if c = 101 ∨ c = 69 then
      match rest with
      | [] => .syntaxError
      | d :: rest1 =>
        if d = 43 ∨ d = 45 then (parseDigits rest1).map (fun ds => c :: d :: ds)
        else (parseDigits (d :: rest1)).map (fun ds => c :: ds)
    else .ok [] (c :: rest)

/-- A number without its sign. -/
def parseUnsigned (s : JSString) : Parsed JSString :=
  (parseInt s).bind fun i r1 =>
    (parseFraction r1).bind fun f r2 =>
      (parseExponent r2).map fun e => i ++ f ++ e

/-- A number literal: an optional minus sign and an unsigned number. -/
def parseNumber : JSString → Parsed JSString
  | [] => .syntaxError
  | c :: rest =>
    if c = 45 then (parseUnsigned rest).map (fun n => 45 :: n)
    else parseUnsigned (c :: rest)

/-- The input with the leading `word` removed, when it starts with it. -/
def dropWord : JSString → JSString → Option JSString
  | [], s => some s
  | _ :: _, [] => none
  | w :: ws, c :: rest => if w = c then dropWord ws rest else none

/-- One of the literal names `true`, `false`, `null`. -/
def parseLiteral (s : JSString) : Parsed Value :=
  match dropWord [116, 114, 117, 101] s with
  | some rest => .ok (.bool true) rest
  | none =>
    match dropWord [102, 97, 108, 115, 101] s with
    | some rest => .ok (.bool false) rest
    | none =>
      match dropWord [110, 117, 108, 108] s with
      | some rest => .ok .null rest
      | none => .syntaxError

/-- Create or overwrite the data property `key`: a repeated key keeps its first position and
takes the last value. -/
def defineProperty (ps : List (JSString × Value)) (key : JSString) (v : Value) :
    List (JSString × Value) :=
  match ps with
  | [] => [(key, v)]
  | (k, w) :: rest =>
    if k = key then (k, v) :: rest else (k, w) :: defineProperty rest key v

/-- The object with the given members defined in source order. -/
def makeObject (members : List (JSString × Value)) : Value :=
  .object (members.foldl (fun ps m => defineProperty ps m.1 m.2) [])

/-- The elements of a non-empty array after `[`: values separated by `,` up to `]`.
`value` parses one value (and skips the white space before it). -/
def parseElements (value : JSString → Parsed Value) : Nat → JSString → Parsed (List Value)
  | 0, _ => .outOfFuel
  | k + 1, s =>
    (value s).bind fun v rest =>
      match skipWhiteSpace rest with
      | [] => .syntaxError
      | c :: rest1 =>
        if c = 44 then (parseElements value k rest1).map (fun vs => v :: vs)
        else if c = 93 then .ok [v] rest1
        else .syntaxError

/-- The members of a non-empty object after `{`: `string : value` separated by `,` up
to `}`. -/
def parseMembers (value : JSString → Parsed Value) :
    Nat → JSString → Parsed (List (JSString × Value))
  | 0, _ => .outOfFuel
  | k + 1, s =>
    match skipWhiteSpace s with
    | [] => .syntaxError
    | q :: rest =>
      if q = 34 then
        (parseChars rest).bind fun key rest1 =>
          match skipWhiteSpace rest1 with
          | [] => .syntaxError
          | c :: rest2 =>
            if c = 58 then
              (value rest2).bind fun v rest3 =>
                match skipWhiteSpace rest3 with
                | [] => .syntaxError
                | d :: rest4 =>
                  if d = 44 then (parseMembers value k rest4).map (fun ms => (key, v) :: ms)
                  else if d = 125 then .ok [(key, v)] rest4
                  else .syntaxError
            else .syntaxError
      else .syntaxError

/-- A JSON value with the white space before it. The first argument bounds the nesting
depth still allowed. -/
def parseValue : Nat → JSString → Parsed Value
  | 0, _ => .outOfFuel
  | n + 1, s =>
    match skipWhiteSpace s with
    | [] => .syntaxError
    | c :: rest =>
      if c = 123 then
        match skipWhiteSpace rest with
        | [] => .syntaxError
        | d :: rest1 =>
          if d = 125 then .ok (.object []) rest1
          else (parseMembers (parseValue n) n rest).map makeObject
      else if c = 91 then
        match skipWhiteSpace rest with
        | [] => .syntaxError
        | d :: rest1 =>
          if d = 93 then .ok (.array []) rest1
          else (parseElements (parseValue n) n rest).map Value.array
      else if c = 34 then (parseChars rest).map Value.string
      else if c = 45 ∨ isDigit c = true then (parseNumber (c :: rest)).map Value.number
      else parseLiteral (c :: rest)

/-- The exception `JSON.parse` throws. -/
inductive Exception where
  | SyntaxError
  deriving DecidableEq

/-- The call `JSON.parse(text)` without a reviver: the text must be one JSON value with
optional white space around it, anything else throws a SyntaxError. The nesting budget
`text.length + 1` is never used up (`parseValue_fuel`). -/
def JSONparse (text : JSString) : Except Exception Value :=
  match parseValue (text.length + 1) text with
  | .ok v rest =>
    match skipWhiteSpace rest with
    | [] => .ok v
    | _ :: _ => .error .SyntaxError
  | _ => .error .SyntaxError

/-! ## The node -/

/-- The calls the node makes on its collaborators (the host `RED`, the node object, the
python-shell instance). `terminate` and `end` are python-shell's ways of stopping the child;
`E` is the type of the error values of the subprocess channel. -/
inductive HostCall (E : Type) where
  | createNode
  | newPythonShell (script : String) (scriptPath : String)
  | on (event : String)
  | send (msg : Value)
  | error (e : E)
  | terminate
  | endShell

/-- What a call of a function did: the calls it made, and the exception it threw if it did
not return normally. -/
structure Completion (E : Type) where
  calls : List (HostCall E)
  thrown : Option Exception

/-- The envelope of enviroLogger.js lines 13-15, the object literal with the
property `payload`. -/
def envelope (results : Value) : Value := .object [(utf16 "payload", results)]

/-- The `'message'` listener (enviroLogger.js lines 11-17). `JSON.parse` is called outside
any `try`, so its exception leaves the listener before `node.send` is reached. -/
def onMessage {E : Type} (messageString : JSString) : Completion E :=
  match JSONparse (replaceQuotes messageString) with
  | .ok results => ⟨[.send (envelope results)], none⟩
  | .error e => ⟨[], some e⟩

/-- The `'error'` listener (enviroLogger.js lines 19-21). -/
def onError {E : Type} (error : E) : Completion E := ⟨[.error error], none⟩

/-- The constructor `EnviroLoggerNode` (enviroLogger.js lines 4-22), for the install
directory `dirname`. -/
def EnviroLoggerNode {E : Type} (dirname : String) : List (HostCall E) :=
  [.createNode, .newPythonShell "script.py" dirname, .on "message", .on "error"]

/-- What the subprocess channel emits. -/
inductive ChannelEvent (E : Type) where
  | message (line : JSString)
  | error (e : E)

/-- The listener that an event runs. -/
def dispatch {E : Type} : ChannelEvent E → Completion E
  | .message line => onMessage line
  | .error e => onError e

/-- The calls of the `'message'` listener over the lines it is run on, one run after the
other. -/
def messageCalls {E : Type} (lines : List JSString) : List (HostCall E) :=
  lines.flatMap fun l => (onMessage l).calls

/-- The calls made while the channel emits the events in order. Whether an event still
reaches its listener after an earlier listener has thrown is decided by the emitter and the
host (python-shell and the flow runtime), not by enviroLogger.js; `resume` is that decision:
`true` when the emitter goes on with the next event, `false` when the throw ends the
delivery. Nothing below is proved for one of the two only. -/
def deliver {E : Type} (resume : Bool) : List (ChannelEvent E) → List (HostCall E)
  | [] => []
  | ev :: evs =>
    match (dispatch ev).thrown with
    | some _ => (dispatch ev).calls ++ (if resume then deliver resume evs else [])
    | none => (dispatch ev).calls ++ deliver resume evs

/-- The life of one node instance: construction, then the events of its channel. -/
def runNode {E : Type} (resume : Bool) (dirname : String) (evs : List (ChannelEvent E)) :
    List (HostCall E) :=
  EnviroLoggerNode dirname ++ deliver resume evs

/-- The messages passed to `node.send` among some calls, in order. -/
def sent {E : Type} : List (HostCall E) → List Value
  | [] => []
  | .send msg :: cs => msg :: sent cs
  | _ :: cs => sent cs

/-- The values passed to `node.error` among some calls, in order. -/
def reported {E : Type} : List (HostCall E) → List E
  | [] => []
  | .error e :: cs => e :: reported cs
  | _ :: cs => reported cs

/-- The number of child processes started among some calls. -/
def spawned {E : Type} : List (HostCall E) → Nat
  | [] => 0
  | .newPythonShell _ _ :: cs => spawned cs + 1
  | _ :: cs => spawned cs

/-- The number of calls that stop a child process. -/
def stopped {E : Type} : List (HostCall E) → Nat
  | [] => 0
  | .terminate :: cs => stopped cs + 1
  | .endShell :: cs => stopped cs + 1
  | _ :: cs => stopped cs

/-! ## The vocabulary of the specification -/

/-- The normalization in the words of the specification: every single quote of the line
replaced by a double quote. -/
def normalized (line : JSString) : JSString := line.map fun c => if c = 39 then 34 else c

/-- What the specification expects of one output line: the object with the one property
`payload` that holds the value decoded from the normalized line, or nothing when the
normalized line does not decode. -/
def decode (line : JSString) : Option Value :=
  match JSONparse (normalized line) with
  | .ok v => some (.object [(utf16 "payload", v)])
  | .error _ => none

/-- A line as its author writes it: text outside string literals, the body of a key, the
body of a string value. -/
inductive Piece where
  | text (t : JSString)
  | key (body : JSString)
  | str (body : JSString)

/-- The line with every key and string value put between two copies of the quote `q`. -/
def write (q : Nat) : List Piece → JSString
  | [] => []
  | .text t :: ps => t ++ write q ps
  | .key body :: ps => q :: (body ++ q :: write q ps)
  | .str body :: ps => q :: (body ++ q :: write q ps)

/-- No apostrophe outside the strings and none inside a string value (keys are free). -/
def valuesFree : List Piece → Prop
  | [] => True
  | .text t :: ps => apostrophe ∉ t ∧ valuesFree ps
  | .key _ :: ps => valuesFree ps
  | .str body :: ps => apostrophe ∉ body ∧ valuesFree ps

/-- No apostrophe outside the strings, inside a key or inside a string value. -/
def stringsFree : List Piece → Prop
  | [] => True
  | .text t :: ps => apostrophe ∉ t ∧ stringsFree ps
  | .key body :: ps => apostrophe ∉ body ∧ stringsFree ps
  | .str body :: ps => apostrophe ∉ body ∧ stringsFree ps

mutual
/-- Whether the code unit `u` occurs in a string of the value: a string value or a property
name, at any depth. -/
def Value.mentions (u : Nat) : Value → Bool
  | .null => false
  | .bool _ => false
  | .number _ => false
  | .string s => s.contains u
  | .array xs => mentionsAny u xs
  | .object ps => mentionsProperty u ps
/-- Some element mentions `u`. -/
def mentionsAny (u : Nat) : List Value → Bool
  | [] => false
  | v :: vs => v.mentions u || mentionsAny u vs
/-- Some property name or property value mentions `u`. -/
def mentionsProperty (u : Nat) : List (JSString × Value) → Bool
  | [] => false
  | (k, v) :: ps => k.contains u || v.mentions u || mentionsProperty u ps
end

/-- The escape sequence `\u0027`, which denotes the apostrophe inside a JSON string. -/
def escapedApostrophe : JSString := [92, 117, 48, 48, 50, 55]

/-- Whether `word` occurs in the string as a run of consecutive code units. -/
def occurs (word : JSString) : JSString → Bool
  | [] => (dropWord word []).isSome
  | c :: rest => (dropWord word (c :: rest)).isSome || occurs word rest

/-! ## Predicates on parsing functions -/

/-- The unread input `rest` is what remains of `s` after at least one code unit. -/
def Advances (rest s : JSString) : Prop := rest <:+ s ∧ rest.length < s.length

/-- Every successful run of the value parser reads at least one code unit. -/
def Progresses (value : JSString → Parsed Value) : Prop :=
  ∀ s v rest, value s = .ok v rest → Advances rest s

/-- The text holds no apostrophe and no escape sequence that denotes one. -/
def Clean (s : JSString) : Prop := apostrophe ∉ s ∧ occurs escapedApostrophe s = false

/-- On clean input the value parser builds values without an apostrophe. -/
def Faithful (value : JSString → Parsed Value) : Prop :=
  ∀ s v rest, Clean s → value s = .ok v rest → v.mentions apostrophe = false

/-! ## The normalization -/

theorem replaceUnit_ne_apostrophe (c : Nat) : replaceUnit c ≠ apostrophe := by
  unfold replaceUnit
  split <;> simp_all

theorem replaceQuotes_no_apostrophe (s : JSString) : apostrophe ∉ replaceQuotes s := by
  intro h
  obtain ⟨c, _, hc⟩ := List.mem_map.mp h
  exact replaceUnit_ne_apostrophe c hc

theorem replaceQuotes_append (s t : JSString) :
    replaceQuotes (s ++ t) = replaceQuotes s ++ replaceQuotes t := by
  simp [replaceQuotes]

theorem replaceQuotes_id (s : JSString) (h : apostrophe ∉ s) : replaceQuotes s = s := by
  induction s with
  | nil => rfl
  | cons c rest ih =>
    have hc : c ≠ apostrophe := fun e => h (e ▸ List.mem_cons_self _ _)
    have hr : apostrophe ∉ rest := fun m => h (List.mem_cons_of_mem _ m)
    have ih1 : List.map replaceUnit rest = rest := ih hr
    simp [replaceQuotes, replaceUnit, hc, ih1]

/-- C9: the normalization keeps the length of the line, leaves no single quote, puts a
double quote wherever the line has a single or a double quote, and copies every other
code unit. -/
theorem replaceQuotes_spec (s : JSString) :
    (replaceQuotes s).length = s.length ∧
    apostrophe ∉ replaceQuotes s ∧
    ∀ (i : Nat) (c : Nat), s[i]? = some c →
      (replaceQuotes s)[i]? =
        some (if c = apostrophe ∨ c = quotationMark then quotationMark else c) := by
  refine ⟨by simp [replaceQuotes], replaceQuotes_no_apostrophe s, ?_⟩
  intro i c hc
  simp only [replaceQuotes, List.getElem?_map, hc, Option.map_some']
  congr 1
  unfold replaceUnit
  by_cases h1 : c = apostrophe
  · simp [h1]
  · by_cases h2 : c = quotationMark
    · simp [h2]
    · simp [h1, h2]

/-! ## The listeners -/

theorem onMessage_ok {E : Type} (line : JSString) (v : Value)
    (h : JSONparse (replaceQuotes line) = .ok v) :
    (onMessage line : Completion E) = ⟨[.send (envelope v)], none⟩ := by
  simp [onMessage, h]

theorem onMessage_error {E : Type} (line : JSString) (e : Exception)
    (h : JSONparse (replaceQuotes line) = .error e) :
    (onMessage line : Completion E) = ⟨[], some e⟩ := by
  simp [onMessage, h]

/-- C5: when the normalized line decodes to `v`, the listener calls `node.send` exactly once
and makes no other call: the message is the object with the single property `payload`,
whose value is `v`; `node.error` is not called and nothing is thrown. -/
theorem onMessage_sends_envelope {E : Type} (line : JSString) (v : Value)
    (h : JSONparse (replaceQuotes line) = .ok v) :
    (onMessage line : Completion E).calls = [.send (.object [(utf16 "payload", v)])] ∧
    sent (onMessage line : Completion E).calls = [.object [(utf16 "payload", v)]] ∧
    reported (onMessage line : Completion E).calls = [] ∧
    (onMessage line : Completion E).thrown = none := by
  rw [onMessage_ok line v h]
  exact ⟨rfl, rfl, rfl, rfl⟩

theorem onMessage_sends_envelope_witness :
    JSONparse (replaceQuotes (utf16 "\x7b'a': 1\x7d"))
      = .ok (.object [(utf16 "a", .number (utf16 "1"))]) ∧
    (onMessage (utf16 "\x7b'a': 1\x7d") : Completion String).calls
      = [.send (.object [(utf16 "payload", .object [(utf16 "a", .number (utf16 "1"))])])] :=
  ⟨rfl, (onMessage_sends_envelope (utf16 "\x7b'a': 1\x7d")
    (.object [(utf16 "a", .number (utf16 "1"))]) rfl).1⟩

/-- C6: the `'error'` listener passes the error it receives to `node.error`, once and
unchanged, makes no other call (no `node.send`) and returns normally. -/
theorem onError_reports {E : Type} (e : E) :
    (onError e).calls = [.error e] ∧
    reported (onError e).calls = [e] ∧
    sent (onError e).calls = [] ∧
    (onError e).thrown = none :=
  ⟨rfl, rfl, rfl, rfl⟩

/-- C3: on a line without a single quote the normalization is the identity; when the direct
parse of the line gives `v`, the listener's only call is `node.send` with the object whose
one property `payload` is `v`, and a message the listener sends can only be that object for
the value of the direct parse; the listener throws exactly when the direct parse throws (the
same exception), and then it forwards nothing. -/
theorem onMessage_double_quoted {E : Type} (line : JSString) (h : apostrophe ∉ line) :
    replaceQuotes line = line ∧
    (∀ v, JSONparse line = .ok v →
      (onMessage line : Completion E) =
        ⟨[.send (.object [(utf16 "payload", v)])], none⟩) ∧
    (∀ m, m ∈ sent (onMessage line : Completion E).calls →
      ∃ v, JSONparse line = .ok v ∧ m = .object [(utf16 "payload", v)]) ∧
    (∀ e, (onMessage line : Completion E).thrown = some e ↔ JSONparse line = .error e) ∧
    (∀ e, JSONparse line = .error e → (onMessage line : Completion E) = ⟨[], some e⟩) := by
  have hid := replaceQuotes_id line h
  refine ⟨hid, ?_, ?_, ?_, ?_⟩
  · intro v hv
    exact onMessage_ok line v (by rw [hid]; exact hv)
  · intro m hm
    cases hp : JSONparse line with
    | ok v =>
      rw [onMessage_ok line v (by rw [hid]; exact hp)] at hm
      simp only [sent, List.mem_singleton] at hm
      exact ⟨v, rfl, hm⟩
    | error e =>
      rw [onMessage_error line e (by rw [hid]; exact hp)] at hm
      simp [sent] at hm
  rotate_left
  · intro e he
    exact onMessage_error line e (by rw [hid]; exact he)
  · intro e
    unfold onMessage
    rw [hid]
    cases hp : JSONparse line with
    | ok v => simp
    | error e1 => simp

theorem onMessage_double_quoted_witness :
    apostrophe ∉ utf16 "\x7b\"a\": 1\x7d" ∧
    (onMessage (utf16 "\x7b\"a\": 1\x7d") : Completion String)
      = ⟨[.send (.object [(utf16 "payload", .object [(utf16 "a", .number (utf16 "1"))])])],
          none⟩ :=
  ⟨by decide, (onMessage_double_quoted (utf16 "\x7b\"a\": 1\x7d") (by decide)).2.1
    (.object [(utf16 "a", .number (utf16 "1"))]) rfl⟩

theorem normalized_eq (line : JSString) : normalized line = replaceQuotes line := rfl

theorem decode_eq_none (line : JSString) (h : decode line = none) :
    JSONparse (replaceQuotes line) = .error .SyntaxError := by
  unfold decode at h
  rw [normalized_eq] at h
  cases hp : JSONparse (replaceQuotes line) with
  | ok v => simp [hp] at h
  | error e => cases e; rfl

theorem decode_eq_some (line : JSString) (m : Value) (h : decode line = some m) :
    ∃ v, JSONparse (replaceQuotes line) = .ok v ∧ m = .object [(utf16 "payload", v)] := by
  unfold decode at h
  rw [normalized_eq] at h
  cases hp : JSONparse (replaceQuotes line) with
  | ok v => exact ⟨v, rfl, by simpa [hp] using h.symm⟩
  | error e => simp [hp] at h

/-- C1, as the code has it: when the normalized line is not valid JSON, the exception of
`JSON.parse` leaves the `'message'` listener; the listener calls neither `node.error` nor
`node.send`. -/
theorem onMessage_invalid_throws {E : Type} (line : JSString) (e : Exception)
    (h : JSONparse (replaceQuotes line) = .error e) :
    (onMessage line : Completion E).thrown = some e ∧
    (onMessage line : Completion E).calls = [] ∧
    reported (onMessage line : Completion E).calls = [] ∧
    sent (onMessage line : Completion E).calls = [] := by
  rw [onMessage_error line e h]
  exact ⟨rfl, rfl, rfl, rfl⟩

theorem onMessage_invalid_throws_witness :
    JSONparse (replaceQuotes (utf16 "['a', 'b'")) = .error .SyntaxError ∧
    (onMessage (utf16 "['a', 'b'") : Completion String).thrown = some .SyntaxError :=
  ⟨rfl, (onMessage_invalid_throws (utf16 "['a', 'b'") .SyntaxError rfl).1⟩

/-- C1 fails on the line with an unmatched brace: the normalized line is not valid JSON,
nothing is reported through `node.error`, and the listener does not return normally. -/
theorem onMessage_unmatched_brace :
    JSONparse (replaceQuotes (utf16 "\x7b'a': 1")) = .error .SyntaxError ∧
    reported (onMessage (utf16 "\x7b'a': 1") : Completion String).calls = [] ∧
    (onMessage (utf16 "\x7b'a': 1") : Completion String).thrown = some .SyntaxError :=
  ⟨rfl, rfl, rfl⟩

/-- C4, as the code has it: on a line that contains an apostrophe the listener decodes a
text that differs from the line; it returns normally exactly when that text is valid JSON,
otherwise the SyntaxError of `JSON.parse` leaves the listener; `node.error` is not called. -/
theorem onMessage_apostrophe {E : Type} (line : JSString) (h : apostrophe ∈ line) :
    replaceQuotes line ≠ line ∧
    ((onMessage line : Completion E).thrown = none ↔
      ∃ v, JSONparse (replaceQuotes line) = .ok v) ∧
    ((onMessage line : Completion E).thrown = some .SyntaxError ↔
      JSONparse (replaceQuotes line) = .error .SyntaxError) ∧
    reported (onMessage line : Completion E).calls = [] := by
  refine ⟨?_, ?_, ?_, ?_⟩
  · intro heq
    exact replaceQuotes_no_apostrophe line (by rw [heq]; exact h)
  · unfold onMessage
    cases hp : JSONparse (replaceQuotes line) with
    | ok v => simp
    | error e => simp
  · unfold onMessage
    cases hp : JSONparse (replaceQuotes line) with
    | ok v => simp
    | error e => cases e; simp
  · unfold onMessage
    cases hp : JSONparse (replaceQuotes line) with
    | ok v => rfl
    | error e => rfl

theorem onMessage_apostrophe_witness :
    apostrophe ∈ utf16 "\x7b'name': 'its'\x7d" ∧
    (onMessage (utf16 "\x7b'name': 'its'\x7d") : Completion String).thrown = none :=
  ⟨by decide, (onMessage_apostrophe (utf16 "\x7b'name': 'its'\x7d") (by decide)).2.1.mpr
    ⟨.object [(utf16 "name", .string (utf16 "its"))], rfl⟩⟩

/-- C4 fails on both lines of the claim: each is a line whose string field holds an
apostrophe, and on each the listener ends by throwing the SyntaxError of `JSON.parse`. -/
theorem onMessage_apostrophe_throws :
    (onMessage (utf16 "\x7b\"name\": \"it's\"\x7d") : Completion String).thrown
      = some .SyntaxError ∧
    (onMessage (utf16 "\x7b'name': 'it's'\x7d") : Completion String).thrown
      = some .SyntaxError :=
  ⟨rfl, rfl⟩

/-! ## Sequences of events -/

theorem sent_append {E : Type} (xs ys : List (HostCall E)) :
    sent (xs ++ ys) = sent xs ++ sent ys := by
  induction xs with
  | nil => rfl
  | cons c cs ih => cases c <;> simp [sent, ih]

theorem spawned_append {E : Type} (xs ys : List (HostCall E)) :
    spawned (xs ++ ys) = spawned xs + spawned ys := by
  induction xs with
  | nil => simp [spawned]
  | cons c cs ih =>
    cases c <;> simp [spawned, ih]
    omega

theorem stopped_append {E : Type} (xs ys : List (HostCall E)) :
    stopped (xs ++ ys) = stopped xs + stopped ys := by
  induction xs with
  | nil => simp [stopped]
  | cons c cs ih => cases c <;> simp [stopped, ih] <;> omega

theorem dispatch_no_process {E : Type} (ev : ChannelEvent E) :
    spawned (dispatch ev).calls = 0 ∧ stopped (dispatch ev).calls = 0 := by
  cases ev with
  | message line =>
    simp only [dispatch, onMessage]
    cases JSONparse (replaceQuotes line) <;> exact ⟨rfl, rfl⟩
  | error e => exact ⟨rfl, rfl⟩

theorem deliver_no_process {E : Type} (resume : Bool) (evs : List (ChannelEvent E)) :
    spawned (deliver resume evs) = 0 ∧ stopped (deliver resume evs) = 0 := by
  induction evs with
  | nil => exact ⟨rfl, rfl⟩
  | cons ev evs ih =>
    have hd := dispatch_no_process ev
    unfold deliver
    cases ht : (dispatch ev).thrown with
    | some e =>
      cases resume with
      | true => simp [spawned_append, stopped_append, hd.1, hd.2, ih.1, ih.2]
      | false => simp [spawned_append, stopped_append, hd.1, hd.2, spawned, stopped]
    | none => simp [spawned_append, stopped_append, hd.1, hd.2, ih.1, ih.2]

theorem deliver_resume {E : Type} (evs : List (ChannelEvent E)) :
    deliver true evs = evs.flatMap fun ev => (dispatch ev).calls := by
  induction evs with
  | nil => rfl
  | cons ev evs ih =>
    unfold deliver
    cases ht : (dispatch ev).thrown <;> simp [List.flatMap_cons, ih]

theorem all_no_process {E : Type} (evs : List (ChannelEvent E)) :
    spawned (evs.flatMap fun ev => (dispatch ev).calls) = 0 ∧
    stopped (evs.flatMap fun ev => (dispatch ev).calls) = 0 := by
  induction evs with
  | nil => exact ⟨rfl, rfl⟩
  | cons ev evs ih =>
    have hd := dispatch_no_process ev
    simp [List.flatMap_cons, spawned_append, stopped_append, hd.1, hd.2, ih.1, ih.2]

/-- C8: constructing the node starts one child process, `script.py` in the install
directory; a listener run starts none and stops none; so over every sequence of lines and
channel errors the node has started exactly one child process and stopped none, whether a
throwing listener ends the delivery or every event still reaches its listener. -/
theorem one_child_process {E : Type} (resume : Bool) (dirname : String)
    (evs : List (ChannelEvent E)) :
    spawned (EnviroLoggerNode dirname : List (HostCall E)) = 1 ∧
    HostCall.newPythonShell "script.py" dirname ∈
      (EnviroLoggerNode dirname : List (HostCall E)) ∧
    (∀ ev : ChannelEvent E,
      spawned (dispatch ev).calls = 0 ∧ stopped (dispatch ev).calls = 0) ∧
    spawned (runNode resume dirname evs) = 1 ∧ stopped (runNode resume dirname evs) = 0 ∧
    spawned ((EnviroLoggerNode dirname : List (HostCall E)) ++
      evs.flatMap fun ev => (dispatch ev).calls) = 1 ∧
    stopped ((EnviroLoggerNode dirname : List (HostCall E)) ++
      evs.flatMap fun ev => (dispatch ev).calls) = 0 := by
  have h1 : spawned (EnviroLoggerNode dirname : List (HostCall E)) = 1 := rfl
  have h0 : stopped (EnviroLoggerNode dirname : List (HostCall E)) = 0 := rfl
  refine ⟨h1, ?_, dispatch_no_process, ?_, ?_, ?_, ?_⟩
  · simp [EnviroLoggerNode]
  · rw [runNode, spawned_append, h1, (deliver_no_process resume evs).1]
  · rw [runNode, stopped_append, h0, (deliver_no_process resume evs).2]
  · rw [spawned_append, h1, (all_no_process evs).1]
  · rw [stopped_append, h0, (all_no_process evs).2]

theorem messageCalls_cons {E : Type} (l : JSString) (ls : List JSString) :
    (messageCalls (l :: ls) : List (HostCall E)) = (onMessage l).calls ++ messageCalls ls := by
  simp [messageCalls, List.flatMap_cons]

theorem messageCalls_append {E : Type} (xs ys : List JSString) :
    (messageCalls (xs ++ ys) : List (HostCall E)) = messageCalls xs ++ messageCalls ys := by
  simp [messageCalls, List.flatMap_append]

theorem onMessage_dropped {E : Type} (l : JSString) (h : decode l = none) :
    (onMessage l : Completion E).calls = [] := by
  rw [onMessage_error l _ (decode_eq_none l h)]

theorem sent_messageCalls {E : Type} (lines : List JSString) :
    sent (messageCalls lines : List (HostCall E)) = lines.filterMap decode := by
  induction lines with
  | nil => rfl
  | cons l ls ih =>
    rw [messageCalls_cons, sent_append, ih]
    cases hd : decode l with
    | none =>
      rw [onMessage_dropped l hd]
      simp [sent, List.filterMap_cons, hd]
    | some m =>
      obtain ⟨v, hp, hm⟩ := decode_eq_some l m hd
      rw [onMessage_ok l v hp]
      simp [sent, List.filterMap_cons, hd, hm, envelope]

/-- C7: over every finite sequence of lines the listener is run on, the messages passed to
`node.send` are, in arrival order, the objects with the one property `payload` holding the
value decoded from the normalized line, for exactly the lines that decode; a line that does
not decode makes no call at all, and the lines before and after it forward what they
forward without it. -/
theorem messages_forwarded {E : Type} (lines : List JSString) :
    sent (messageCalls lines : List (HostCall E)) = lines.filterMap decode ∧
    (∀ l, decode l = none → (onMessage l : Completion E).calls = []) ∧
    (∀ pre l post, lines = pre ++ l :: post → decode l = none →
      sent (messageCalls lines : List (HostCall E)) =
        sent (messageCalls pre : List (HostCall E)) ++
          sent (messageCalls post : List (HostCall E))) := by
  refine ⟨sent_messageCalls lines, fun l hl => onMessage_dropped l hl, ?_⟩
  intro pre l post hsplit hl
  rw [hsplit, messageCalls_append, messageCalls_cons, onMessage_dropped l hl, sent_append]
  rfl

theorem messages_forwarded_witness :
    sent (messageCalls [utf16 "\x7b'a': 1\x7d", utf16 "\x7b'a': 1", utf16 "[2]"] :
      List (HostCall String)) =
    [.object [(utf16 "payload", .object [(utf16 "a", .number (utf16 "1"))])],
     .object [(utf16 "payload", .array [.number (utf16 "2")])]] :=
  (messages_forwarded [utf16 "\x7b'a': 1\x7d", utf16 "\x7b'a': 1", utf16 "[2]"]).1.trans rfl

/-! ## Lines written with single quotes -/

theorem replaceQuotes_write (ps : List Piece) (h : stringsFree ps) :
    replaceQuotes (write apostrophe ps) = write quotationMark ps := by
  induction ps with
  | nil => rfl
  | cons p ps ih =>
    cases p with
    | text t =>
      obtain ⟨ht, hps⟩ := h
      simp only [write, replaceQuotes_append, replaceQuotes_id t ht, ih hps]
    | key body =>
      obtain ⟨hb, hps⟩ := h
      have h1 : replaceQuotes (apostrophe :: (body ++ apostrophe :: write apostrophe ps)) =
          quotationMark :: (replaceQuotes body ++
            quotationMark :: replaceQuotes (write apostrophe ps)) := by
        simp [replaceQuotes, replaceUnit]
      simp only [write, h1, replaceQuotes_id body hb, ih hps]
    | str body =>
      obtain ⟨hb, hps⟩ := h
      have h1 : replaceQuotes (apostrophe :: (body ++ apostrophe :: write apostrophe ps)) =
          quotationMark :: (replaceQuotes body ++
            quotationMark :: replaceQuotes (write apostrophe ps)) := by
        simp [replaceQuotes, replaceUnit]
      simp only [write, h1, replaceQuotes_id body hb, ih hps]

/-- C2, as the code has it: for a line written with single quotes around its keys and
string values, with no apostrophe inside any key or string value (nor outside the strings),
the normalized line is the same line written with double quotes around them; when that
double-quoted line parses to `v`, the listener's only call is `node.send` with the object
whose one property `payload` is `v`; when it does not parse, the listener throws the
exception of the parse and forwards nothing. -/
theorem onMessage_single_quoted {E : Type} (ps : List Piece) (h : stringsFree ps) :
    replaceQuotes (write apostrophe ps) = write quotationMark ps ∧
    (∀ v, JSONparse (write quotationMark ps) = .ok v →
      (onMessage (write apostrophe ps) : Completion E) =
        ⟨[.send (.object [(utf16 "payload", v)])], none⟩) ∧
    (∀ e, JSONparse (write quotationMark ps) = .error e →
      (onMessage (write apostrophe ps) : Completion E) = ⟨[], some e⟩) := by
  have hw := replaceQuotes_write ps h
  refine ⟨hw, ?_, ?_⟩
  · intro v hv
    exact onMessage_ok _ v (by rw [hw]; exact hv)
  · intro e he
    exact onMessage_error _ e (by rw [hw]; exact he)

theorem onMessage_single_quoted_witness :
    stringsFree [.text (utf16 "\x7b"), .key (utf16 "t"), .text (utf16 ": "),
      .str (utf16 "hot"), .text (utf16 "\x7d")] ∧
    (onMessage (utf16 "\x7b't': 'hot'\x7d") : Completion String)
      = ⟨[.send (.object [(utf16 "payload", .object [(utf16 "t", .string (utf16 "hot"))])])],
          none⟩ :=
  ⟨⟨by decide, by decide, by decide, by decide, by decide, trivial⟩,
   (onMessage_single_quoted [.text (utf16 "\x7b"), .key (utf16 "t"), .text (utf16 ": "),
      .str (utf16 "hot"), .text (utf16 "\x7d")]
      ⟨by decide, by decide, by decide, by decide, by decide, trivial⟩).2.1
      (.object [(utf16 "t", .string (utf16 "hot"))]) rfl⟩

/-- C2 fails when a key holds the apostrophe: the line writes the object with the key
`it's` and the number 1 with single quotes around the key, no string value holds an
apostrophe; written with double quotes it parses, the claim expects the object with that
value in `payload` to be forwarded, and on the single-quoted line the listener forwards
nothing and throws. -/
theorem onMessage_key_apostrophe :
    valuesFree [.text (utf16 "\x7b"), .key (utf16 "it's"), .text (utf16 ": 1\x7d")] ∧
    write apostrophe [.text (utf16 "\x7b"), .key (utf16 "it's"), .text (utf16 ": 1\x7d")]
      = utf16 "\x7b'it's': 1\x7d" ∧
    JSONparse (write quotationMark
        [.text (utf16 "\x7b"), .key (utf16 "it's"), .text (utf16 ": 1\x7d")])
      = .ok (.object [(utf16 "it's", .number (utf16 "1"))]) ∧
    (onMessage (utf16 "\x7b'it's': 1\x7d") : Completion String)
      = ⟨[], some .SyntaxError⟩ ∧
    sent (onMessage (utf16 "\x7b'it's': 1\x7d") : Completion String).calls
      ≠ [.object [(utf16 "payload", .object [(utf16 "it's", .number (utf16 "1"))])]] :=
  ⟨⟨by decide, by decide, trivial⟩, rfl, rfl, rfl, by
    intro h
    exact List.noConfusion h⟩

/-- A string body that holds a double quote: the line has no apostrophe inside a key or a
string value, the same line with double quotes around them is not valid JSON, and the
listener throws. -/
theorem onMessage_inner_quotation :
    stringsFree [.text (utf16 "\x7b"), .key (utf16 "a"), .text (utf16 ": "),
      .str (utf16 "say \"hi\""), .text (utf16 "\x7d")] ∧
    write apostrophe [.text (utf16 "\x7b"), .key (utf16 "a"), .text (utf16 ": "),
      .str (utf16 "say \"hi\""), .text (utf16 "\x7d")]
      = utf16 "\x7b'a': 'say \"hi\"'\x7d" ∧
    JSONparse (write quotationMark [.text (utf16 "\x7b"), .key (utf16 "a"),
      .text (utf16 ": "), .str (utf16 "say \"hi\""), .text (utf16 "\x7d")])
      = .error .SyntaxError ∧
    (onMessage (utf16 "\x7b'a': 'say \"hi\"'\x7d") : Completion String)
      = ⟨[], some .SyntaxError⟩ :=
  ⟨⟨by decide, by decide, by decide, by decide, by decide, trivial⟩, rfl, rfl, rfl⟩

/-! ## `JSON.parse`: progress and fuel -/

theorem Parsed.map_eq_ok {α β : Type} (f : α → β) (p : Parsed α) (b : β) (rest : JSString)
    (h : p.map f = .ok b rest) : ∃ a, p = .ok a rest ∧ b = f a := by
  cases p with
  | ok a r =>
    simp only [Parsed.map, Parsed.ok.injEq] at h
    exact ⟨a, by rw [h.2], h.1.symm⟩
  | syntaxError => simp [Parsed.map] at h
  | outOfFuel => simp [Parsed.map] at h

theorem Parsed.bind_eq_ok {α β : Type} (p : Parsed α) (f : α → JSString → Parsed β) (b : β)
    (rest : JSString) (h : p.bind f = .ok b rest) :
    ∃ a r, p = .ok a r ∧ f a r = .ok b rest := by
  cases p with
  | ok a r => exact ⟨a, r, rfl, h⟩
  | syntaxError => simp [Parsed.bind] at h
  | outOfFuel => simp [Parsed.bind] at h

theorem Advances.cons (c : Nat) (s : JSString) : Advances s (c :: s) :=
  ⟨List.suffix_cons c s, by simp⟩

theorem Advances.trans {a b c : JSString} (h1 : Advances a b) (h2 : Advances b c) :
    Advances a c :=
  ⟨h1.1.trans h2.1, by have := h1.2; have := h2.2; omega⟩

theorem Advances.of_suffix {a b c : JSString} (h1 : a <:+ b) (h2 : Advances b c) :
    Advances a c :=
  ⟨h1.trans h2.1, by have := h1.length_le; have := h2.2; omega⟩

theorem Advances.within {a b c : JSString} (h1 : Advances a b) (h2 : b <:+ c) :
    Advances a c :=
  ⟨h1.1.trans h2, by have := h2.length_le; have := h1.2; omega⟩

theorem skipWhiteSpace_suffix (s : JSString) : skipWhiteSpace s <:+ s := by
  induction s with
  | nil => exact List.suffix_refl _
  | cons c rest ih =>
    unfold skipWhiteSpace
    split
    · exact ih.trans (List.suffix_cons c rest)
    · exact List.suffix_refl _

theorem parseChars_advances : ∀ (n : Nat) (s : JSString), s.length ≤ n →
    ∀ a rest, parseChars s = .ok a rest → Advances rest s := by
  intro n
  induction n with
  | zero =>
    intro s hs a rest h
    cases s with
    | nil => simp [parseChars] at h
    | cons c r => simp at hs
  | succ n ih =>
    intro s hs a rest h
    cases s with
    | nil => simp [parseChars] at h
    | cons c r =>
      have hr : r.length ≤ n := by simpa using hs
      unfold parseChars at h
      split at h
      · simp only [Parsed.ok.injEq] at h
        rw [← h.2]
        exact Advances.cons c r
      · split at h
        · split at h
          · simp at h
          · rename_i e rest1
            split at h
            · split at h
              · rename_i h1 h2 h3 h4 rest2
                split at h
                · obtain ⟨a1, ha1, _⟩ := Parsed.map_eq_ok _ _ _ _ h
                  have := ih rest2 (by simp at hr; omega) a1 rest ha1
                  refine this.within ?_
                  exact ⟨[c, e, h1, h2, h3, h4], by simp⟩
                · simp at h
              · simp at h
            · split at h
              · obtain ⟨a1, ha1, _⟩ := Parsed.map_eq_ok _ _ _ _ h
                have := ih rest1 (by simp at hr; omega) a1 rest ha1
                exact this.within ⟨[c, e], by simp⟩
              · simp at h
        · split at h
          · simp at h
          · obtain ⟨a1, ha1, _⟩ := Parsed.map_eq_ok _ _ _ _ h
            have := ih r hr a1 rest ha1
            exact this.within ⟨[c], by simp⟩

theorem takeDigits_suffix (s : JSString) : (takeDigits s).2 <:+ s := by
  induction s with
  | nil => exact List.suffix_refl _
  | cons c rest ih =>
    unfold takeDigits
    split
    · exact ih.trans (List.suffix_cons c rest)
    · exact List.suffix_refl _

theorem takeDigits_length (s : JSString) :
    (takeDigits s).1.length + (takeDigits s).2.length = s.length := by
  induction s with
  | nil => rfl
  | cons c rest ih =>
    unfold takeDigits
    split
    · simp only [List.length_cons]; omega
    · simp

theorem parseDigits_advances (s a rest : JSString) (h : parseDigits s = .ok a rest) :
    Advances rest s := by
  unfold parseDigits at h
  split at h
  · simp at h
  · rename_i d ds r heq
    simp only [Parsed.ok.injEq] at h
    have h1 := takeDigits_suffix s
    have h2 := takeDigits_length s
    rw [heq] at h1 h2
    rw [← h.2]
    exact ⟨h1, by simp only [List.length_cons] at h2; omega⟩

theorem parseDigits_fuel (s : JSString) : parseDigits s ≠ .outOfFuel := by
  unfold parseDigits
  split <;> simp

theorem parseInt_advances (s a rest : JSString) (h : parseInt s = .ok a rest) :
    Advances rest s := by
  cases s with
  | nil => simp [parseInt] at h
  | cons c r =>
    simp only [parseInt] at h
    split at h
    · simp only [Parsed.ok.injEq] at h
      rw [← h.2]; exact Advances.cons c r
    · split at h
      · simp only [Parsed.ok.injEq] at h
        rw [← h.2]
        exact Advances.of_suffix (takeDigits_suffix r) (Advances.cons c r)
      · simp at h

theorem parseInt_fuel (s : JSString) : parseInt s ≠ .outOfFuel := by
  cases s with
  | nil => simp [parseInt]
  | cons c r =>
    simp only [parseInt]
    split
    · simp
    · split <;> simp

theorem parseFraction_suffix (s a rest : JSString) (h : parseFraction s = .ok a rest) :
    rest <:+ s := by
  cases s with
  | nil =>
    simp only [parseFraction, Parsed.ok.injEq] at h
    rw [← h.2]
  | cons c r =>
    simp only [parseFraction] at h
    split at h
    · obtain ⟨a1, ha1, _⟩ := Parsed.map_eq_ok _ _ _ _ h
      exact (parseDigits_advances r a1 rest ha1).1.trans (List.suffix_cons c r)
    · simp only [Parsed.ok.injEq] at h
      rw [← h.2]

theorem Parsed.map_fuel {α β : Type} (f : α → β) (p : Parsed α) (h : p ≠ .outOfFuel) :
    p.map f ≠ .outOfFuel := by
  cases p with
  | ok a r => simp [Parsed.map]
  | syntaxError => simp [Parsed.map]
  | outOfFuel => exact absurd rfl h

theorem Parsed.bind_fuel {α β : Type} (p : Parsed α) (f : α → JSString → Parsed β)
    (h : p ≠ .outOfFuel) (hf : ∀ a r, p = .ok a r → f a r ≠ .outOfFuel) :
    p.bind f ≠ .outOfFuel := by
  cases p with
  | ok a r => exact hf a r rfl
  | syntaxError => simp [Parsed.bind]
  | outOfFuel => exact absurd rfl h

theorem parseFraction_fuel (s : JSString) : parseFraction s ≠ .outOfFuel := by
  cases s with
  | nil => simp [parseFraction]
  | cons c r =>
    simp only [parseFraction]
    split
    · exact Parsed.map_fuel _ _ (parseDigits_fuel r)
    · simp

theorem parseExponent_suffix (s a rest : JSString) (h : parseExponent s = .ok a rest) :
    rest <:+ s := by
  cases s with
  | nil =>
    simp only [parseExponent, Parsed.ok.injEq] at h
    rw [← h.2]
  | cons c r =>
    simp only [parseExponent] at h
    split at h
    · split at h
      · simp at h
      · rename_i d rest1
        split at h
        · obtain ⟨a1, ha1, _⟩ := Parsed.map_eq_ok _ _ _ _ h
          exact (parseDigits_advances rest1 a1 rest ha1).1.trans ⟨[c, d], by simp⟩
        · obtain ⟨a1, ha1, _⟩ := Parsed.map_eq_ok _ _ _ _ h
          exact (parseDigits_advances (d :: rest1) a1 rest ha1).1.trans ⟨[c], by simp⟩
    · simp only [Parsed.ok.injEq] at h
      rw [← h.2]

theorem parseExponent_fuel (s : JSString) : parseExponent s ≠ .outOfFuel := by
  cases s with
  | nil => simp [parseExponent]
  | cons c r =>
    simp only [parseExponent]
    split
    · split
      · simp
      · split <;> exact Parsed.map_fuel _ _ (parseDigits_fuel _)
    · simp

theorem parseUnsigned_advances (s a rest : JSString) (h : parseUnsigned s = .ok a rest) :
    Advances rest s := by
  unfold parseUnsigned at h
  obtain ⟨i, r1, hi, h⟩ := Parsed.bind_eq_ok _ _ _ _ h
  obtain ⟨f, r2, hf, h⟩ := Parsed.bind_eq_ok _ _ _ _ h
  obtain ⟨e, he, _⟩ := Parsed.map_eq_ok _ _ _ _ h
  exact Advances.of_suffix ((parseExponent_suffix r2 e rest he).trans
    (parseFraction_suffix r1 f r2 hf)) (parseInt_advances s i r1 hi)

theorem parseUnsigned_fuel (s : JSString) : parseUnsigned s ≠ .outOfFuel := by
  unfold parseUnsigned
  refine Parsed.bind_fuel _ _ (parseInt_fuel s) fun i r1 _ => ?_
  refine Parsed.bind_fuel _ _ (parseFraction_fuel r1) fun f r2 _ => ?_
  exact Parsed.map_fuel _ _ (parseExponent_fuel r2)

theorem parseNumber_advances (s a rest : JSString) (h : parseNumber s = .ok a rest) :
    Advances rest s := by
  cases s with
  | nil => simp [parseNumber] at h
  | cons c r =>
    simp only [parseNumber] at h
    split at h
    · obtain ⟨a1, ha1, _⟩ := Parsed.map_eq_ok _ _ _ _ h
      exact (parseUnsigned_advances r a1 rest ha1).within (List.suffix_cons c r)
    · exact parseUnsigned_advances _ a rest h

theorem parseNumber_fuel (s : JSString) : parseNumber s ≠ .outOfFuel := by
  cases s with
  | nil => simp [parseNumber]
  | cons c r =>
    simp only [parseNumber]
    split
    · exact Parsed.map_fuel _ _ (parseUnsigned_fuel r)
    · exact parseUnsigned_fuel _

theorem dropWord_advances (w : JSString) : ∀ (s rest : JSString),
    dropWord w s = some rest → rest <:+ s ∧ rest.length + w.length = s.length := by
  induction w with
  | nil =>
    intro s rest h
    simp only [dropWord, Option.some.injEq] at h
    rw [← h]
    exact ⟨List.suffix_refl _, rfl⟩
  | cons x w ih =>
    intro s rest h
    cases s with
    | nil => simp [dropWord] at h
    | cons c r =>
      unfold dropWord at h
      split at h
      · obtain ⟨h1, h2⟩ := ih r rest h
        exact ⟨h1.trans (List.suffix_cons c r), by simp only [List.length_cons]; omega⟩
      · simp at h

theorem parseLiteral_advances (s : JSString) (v : Value) (rest : JSString)
    (h : parseLiteral s = .ok v rest) :
    Advances rest s ∧ v.mentions apostrophe = false := by
  unfold parseLiteral at h
  split at h
  · rename_i r heq
    simp only [Parsed.ok.injEq] at h
    obtain ⟨h1, h2⟩ := dropWord_advances _ s r heq
    rw [← h.1, ← h.2]
    exact ⟨⟨h1, by simp only [List.length_cons, List.length_nil] at h2; omega⟩, rfl⟩
  · split at h
    · rename_i r heq
      simp only [Parsed.ok.injEq] at h
      obtain ⟨h1, h2⟩ := dropWord_advances _ s r heq
      rw [← h.1, ← h.2]
      exact ⟨⟨h1, by simp only [List.length_cons, List.length_nil] at h2; omega⟩, rfl⟩
    · split at h
      · rename_i r heq
        simp only [Parsed.ok.injEq] at h
        obtain ⟨h1, h2⟩ := dropWord_advances _ s r heq
        rw [← h.1, ← h.2]
        exact ⟨⟨h1, by simp only [List.length_cons, List.length_nil] at h2; omega⟩, rfl⟩
      · simp at h

theorem parseLiteral_fuel (s : JSString) : parseLiteral s ≠ .outOfFuel := by
  unfold parseLiteral
  split
  · simp
  · split
    · simp
    · split <;> simp

theorem parseChars_fuel : ∀ (n : Nat) (s : JSString), s.length ≤ n →
    parseChars s ≠ .outOfFuel := by
  intro n
  induction n with
  | zero =>
    intro s hs
    cases s with
    | nil => simp [parseChars]
    | cons c r => simp at hs
  | succ n ih =>
    intro s hs
    cases s with
    | nil => simp [parseChars]
    | cons c r =>
      have hr : r.length ≤ n := by simpa using hs
      unfold parseChars
      split
      · simp
      · split
        · split
          · simp
          · rename_i e rest1
            split
            · split
              · rename_i h1 h2 h3 h4 rest2
                split
                · exact Parsed.map_fuel _ _ (ih rest2 (by simp at hr; omega))
                · simp
              · simp
            · split
              · exact Parsed.map_fuel _ _ (ih rest1 (by simp at hr; omega))
              · simp
        · split
          · simp
          · exact Parsed.map_fuel _ _ (ih r hr)

theorem parseElements_advances (value : JSString → Parsed Value) (hv : Progresses value) :
    ∀ (k : Nat) (s : JSString) (vs : List Value) (rest : JSString),
      parseElements value k s = .ok vs rest → Advances rest s := by
  intro k
  induction k with
  | zero => intro s vs rest h; simp [parseElements] at h
  | succ k ih =>
    intro s vs rest h
    unfold parseElements at h
    obtain ⟨v, r, hval, h⟩ := Parsed.bind_eq_ok _ _ _ _ h
    have hr := hv s v r hval
    have hsk := skipWhiteSpace_suffix r
    split at h
    · simp at h
    · rename_i c rest1 heq
      rw [heq] at hsk
      have h1 : Advances rest1 s :=
        ((Advances.cons c rest1).within hsk).trans hr
      split at h
      · obtain ⟨vs1, hvs1, _⟩ := Parsed.map_eq_ok _ _ _ _ h
        exact (ih rest1 vs1 rest hvs1).trans h1
      · split at h
        · simp only [Parsed.ok.injEq] at h
          rw [← h.2]; exact h1
        · simp at h

theorem parseMembers_advances (value : JSString → Parsed Value) (hv : Progresses value) :
    ∀ (k : Nat) (s : JSString) (ms : List (JSString × Value)) (rest : JSString),
      parseMembers value k s = .ok ms rest → Advances rest s := by
  intro k
  induction k with
  | zero => intro s ms rest h; simp [parseMembers] at h
  | succ k ih =>
    intro s ms rest h
    unfold parseMembers at h
    have hs0 := skipWhiteSpace_suffix s
    split at h
    · simp at h
    · rename_i q r0 heq0
      rw [heq0] at hs0
      split at h
      · obtain ⟨key, rest1, hkey, h⟩ := Parsed.bind_eq_ok _ _ _ _ h
        have hk1 : Advances rest1 s :=
          ((parseChars_advances _ r0 (le_refl _) key rest1 hkey).trans
            (Advances.cons q r0)).within hs0
        have hs1 := skipWhiteSpace_suffix rest1
        split at h
        · simp at h
        · rename_i c rest2 heq1
          rw [heq1] at hs1
          split at h
          · obtain ⟨v, rest3, hval, h⟩ := Parsed.bind_eq_ok _ _ _ _ h
            have hk3 : Advances rest3 s :=
              (hv rest2 v rest3 hval).trans
                (((Advances.cons c rest2).within hs1).trans hk1)
            have hs3 := skipWhiteSpace_suffix rest3
            split at h
            · simp at h
            · rename_i d rest4 heq3
              rw [heq3] at hs3
              have hk4 : Advances rest4 s := ((Advances.cons d rest4).within hs3).trans hk3
              split at h
              · obtain ⟨ms1, hms1, _⟩ := Parsed.map_eq_ok _ _ _ _ h
                exact (ih rest4 ms1 rest hms1).trans hk4
              · split at h
                · simp only [Parsed.ok.injEq] at h
                  rw [← h.2]; exact hk4
                · simp at h
          · simp at h
      · simp at h

theorem parseValue_advances : ∀ n : Nat, Progresses (parseValue n) := by
  intro n
  induction n with
  | zero => intro s v rest h; simp [parseValue] at h
  | succ n ih =>
    intro s v rest h
    unfold parseValue at h
    have hs0 := skipWhiteSpace_suffix s
    split at h
    · simp at h
    · rename_i c r0 heq0
      rw [heq0] at hs0
      have hc : Advances r0 s := (Advances.cons c r0).within hs0
      split at h
      · split at h
        · simp at h
        · rename_i d rest1 heq1
          have hs1 := skipWhiteSpace_suffix r0
          rw [heq1] at hs1
          split at h
          · simp only [Parsed.ok.injEq] at h
            rw [← h.2]
            exact ((Advances.cons d rest1).within hs1).trans hc
          · obtain ⟨ms, hms, _⟩ := Parsed.map_eq_ok _ _ _ _ h
            exact (parseMembers_advances _ ih n r0 ms rest hms).trans hc
      · split at h
        · split at h
          · simp at h
          · rename_i d rest1 heq1
            have hs1 := skipWhiteSpace_suffix r0
            rw [heq1] at hs1
            split at h
            · simp only [Parsed.ok.injEq] at h
              rw [← h.2]
              exact ((Advances.cons d rest1).within hs1).trans hc
            · obtain ⟨vs, hvs, _⟩ := Parsed.map_eq_ok _ _ _ _ h
              exact (parseElements_advances _ ih n r0 vs rest hvs).trans hc
        · split at h
          · obtain ⟨a, ha, _⟩ := Parsed.map_eq_ok _ _ _ _ h
            exact (parseChars_advances _ r0 (le_refl _) a rest ha).trans hc
          · split at h
            · obtain ⟨a, ha, _⟩ := Parsed.map_eq_ok _ _ _ _ h
              exact (parseNumber_advances _ a rest ha).within hs0
            · exact (parseLiteral_advances _ v rest h).1.within hs0

theorem parseElements_fuel (value : JSString → Parsed Value) (hv : Progresses value) :
    ∀ (k : Nat) (s : JSString), s.length < k →
      (∀ t : JSString, t.length ≤ s.length → value t ≠ .outOfFuel) →
      parseElements value k s ≠ .outOfFuel := by
  intro k
  induction k with
  | zero => intro s hk; simp at hk
  | succ k ih =>
    intro s hk hf
    unfold parseElements
    refine Parsed.bind_fuel _ _ (hf s (le_refl _)) fun v r hval => ?_
    have hr := hv s v r hval
    have hsk := skipWhiteSpace_suffix r
    split
    · simp
    · rename_i c rest1 heq
      rw [heq] at hsk
      have h1 : Advances rest1 s := ((Advances.cons c rest1).within hsk).trans hr
      split
      · refine Parsed.map_fuel _ _ (ih rest1 (by have := h1.2; omega) fun t ht => ?_)
        exact hf t (by have := h1.2; omega)
      · split <;> simp

theorem parseMembers_fuel (value : JSString → Parsed Value) (hv : Progresses value) :
    ∀ (k : Nat) (s : JSString), s.length < k →
      (∀ t : JSString, t.length ≤ s.length → value t ≠ .outOfFuel) →
      parseMembers value k s ≠ .outOfFuel := by
  intro k
  induction k with
  | zero => intro s hk; simp at hk
  | succ k ih =>
    intro s hk hf
    unfold parseMembers
    have hs0 := skipWhiteSpace_suffix s
    split
    · simp
    · rename_i q r0 heq0
      rw [heq0] at hs0
      split
      · refine Parsed.bind_fuel _ _ (parseChars_fuel _ r0 (le_refl _)) fun key rest1 hkey => ?_
        have hk1 : Advances rest1 s :=
          ((parseChars_advances _ r0 (le_refl _) key rest1 hkey).trans
            (Advances.cons q r0)).within hs0
        have hs1 := skipWhiteSpace_suffix rest1
        split
        · simp
        · rename_i c rest2 heq1
          rw [heq1] at hs1
          have hk2 : Advances rest2 s := ((Advances.cons c rest2).within hs1).trans hk1
          split
          · refine Parsed.bind_fuel _ _ (hf rest2 (by have := hk2.2; omega))
              fun v rest3 hval => ?_
            have hk3 : Advances rest3 s := (hv rest2 v rest3 hval).trans hk2
            have hs3 := skipWhiteSpace_suffix rest3
            split
            · simp
            · rename_i d rest4 heq3
              rw [heq3] at hs3
              have hk4 : Advances rest4 s := ((Advances.cons d rest4).within hs3).trans hk3
              split
              · refine Parsed.map_fuel _ _ (ih rest4 (by have := hk4.2; omega) fun t ht => ?_)
                exact hf t (by have := hk4.2; omega)
              · split <;> simp
          · simp
      · simp

/-- The nesting budget suffices: with more fuel than the input has code units,
`parseValue` never stops for lack of fuel. -/
theorem parseValue_fuel : ∀ (n : Nat) (s : JSString), s.length < n →
    parseValue n s ≠ .outOfFuel := by
  intro n
  induction n with
  | zero => intro s hs; simp at hs
  | succ n ih =>
    intro s hs
    unfold parseValue
    have hs0 := skipWhiteSpace_suffix s
    split
    · simp
    · rename_i c r0 heq0
      rw [heq0] at hs0
      have hc : Advances r0 s := (Advances.cons c r0).within hs0
      have hlen : r0.length < n := by have := hc.2; omega
      split
      · split
        · simp
        · split
          · simp
          · exact Parsed.map_fuel _ _ (parseMembers_fuel _ (parseValue_advances n) n r0 hlen
              fun t ht => ih t (by omega))
      · split
        · split
          · simp
          · split
            · simp
            · exact Parsed.map_fuel _ _ (parseElements_fuel _ (parseValue_advances n) n r0 hlen
                fun t ht => ih t (by omega))
        · split
          · exact Parsed.map_fuel _ _ (parseChars_fuel _ r0 (le_refl _))
          · split
            · exact Parsed.map_fuel _ _ (parseNumber_fuel _)
            · exact parseLiteral_fuel _

/-! ## `JSON.parse`: apostrophes in the values -/

theorem occurs_suffix (w : JSString) : ∀ (s rest : JSString), rest <:+ s →
    occurs w s = false → occurs w rest = false := by
  intro s
  induction s with
  | nil =>
    intro rest hsuf h
    rw [List.suffix_nil.mp hsuf]; exact h
  | cons c r ih =>
    intro rest hsuf h
    rcases List.suffix_cons_iff.mp hsuf with heq | hsuf1
    · rw [heq]; exact h
    · unfold occurs at h
      simp only [Bool.or_eq_false_iff] at h
      exact ih rest hsuf1 h.2

theorem Clean.inherit {s rest : JSString} (h : Clean s) (hsuf : rest <:+ s) : Clean rest :=
  ⟨fun hm => h.1 (hsuf.subset hm), occurs_suffix _ s rest hsuf h.2⟩

theorem Clean.head {c : Nat} {s : JSString} (h : Clean (c :: s)) : c ≠ apostrophe :=
  fun e => h.1 (e ▸ List.mem_cons_self _ _)

theorem Clean.not_escape {s : JSString} (h : Clean s) :
    dropWord escapedApostrophe s = none := by
  have h2 := h.2
  cases s with
  | nil => rfl
  | cons c r =>
    unfold occurs at h2
    simp only [Bool.or_eq_false_iff] at h2
    cases hd : dropWord escapedApostrophe (c :: r) with
    | none => rfl
    | some x => simp [hd] at h2

theorem hexValue_digit (h a : Nat) (hh : hexValue h = some a) :
    a < 16 ∧ (a = 0 → h = 48) ∧ (a = 2 → h = 50) ∧ (a = 7 → h = 55) := by
  unfold hexValue at hh
  split at hh
  · simp only [Option.some.injEq] at hh; omega
  · split at hh
    · simp only [Option.some.injEq] at hh; omega
    · split at hh
      · simp only [Option.some.injEq] at hh; omega
      · simp at hh

theorem escapeValue_ne_apostrophe (e u : Nat) (h : escapeValue e = some u) :
    u ≠ apostrophe := by
  unfold escapeValue at h
  repeat' split at h
  all_goals first
    | (simp only [Option.some.injEq] at h; subst h; decide)
    | simp at h

theorem parseChars_clean : ∀ (n : Nat) (s : JSString), s.length ≤ n → Clean s →
    ∀ a rest, parseChars s = .ok a rest → apostrophe ∉ a := by
  intro n
  induction n with
  | zero =>
    intro s hs _ a rest h
    cases s with
    | nil => simp [parseChars] at h
    | cons c r => simp at hs
  | succ n ih =>
    intro s hs hcl a rest h
    cases s with
    | nil => simp [parseChars] at h
    | cons c r =>
      have hr : r.length ≤ n := by simpa using hs
      unfold parseChars at h
      split at h
      · simp only [Parsed.ok.injEq] at h
        rw [← h.1]; simp
      · split at h
        · split at h
          · simp at h
          · rename_i hc92 _ e rest1
            split at h
            · split at h
              · rename_i he117 _ h1 h2 h3 h4 rest2
                split at h
                · rename_i x1 x2 x3 x4 e1 e2 e3 e4
                  obtain ⟨a1, ha1, hval⟩ := Parsed.map_eq_ok _ _ _ _ h
                  have hrec := ih rest2 (by simp at hr; omega)
                    (hcl.inherit ⟨[c, e, h1, h2, h3, h4], by simp⟩) a1 rest ha1
                  have d1 := hexValue_digit _ _ e1
                  have d2 := hexValue_digit _ _ e2
                  have d3 := hexValue_digit _ _ e3
                  have d4 := hexValue_digit _ _ e4
                  have hne : ((x1 * 16 + x2) * 16 + x3) * 16 + x4 ≠ apostrophe := by
                    intro heq
                    have q1 : x1 = 0 := by simp only [apostrophe] at heq; omega
                    have q2 : x2 = 0 := by simp only [apostrophe] at heq; omega
                    have q3 : x3 = 2 := by simp only [apostrophe] at heq; omega
                    have q4 : x4 = 7 := by simp only [apostrophe] at heq; omega
                    have hesc := hcl.not_escape
                    rw [hc92, he117, d1.2.1 q1, d2.2.1 q2, d3.2.2.1 q3, d4.2.2.2 q4] at hesc
                    simp [escapedApostrophe, dropWord] at hesc
                  rw [hval]
                  intro hm
                  rcases List.mem_cons.mp hm with hm | hm
                  · exact hne hm.symm
                  · exact hrec hm
                · simp at h
              · simp at h
            · split at h
              · rename_i u hu
                obtain ⟨a1, ha1, hval⟩ := Parsed.map_eq_ok _ _ _ _ h
                have hrec := ih rest1 (by simp at hr; omega)
                  (hcl.inherit ⟨[c, e], by simp⟩) a1 rest ha1
                rw [hval]
                intro hm
                rcases List.mem_cons.mp hm with hm | hm
                · exact escapeValue_ne_apostrophe e u hu hm.symm
                · exact hrec hm
              · simp at h
        · split at h
          · simp at h
          · obtain ⟨a1, ha1, hval⟩ := Parsed.map_eq_ok _ _ _ _ h
            have hrec := ih r hr (hcl.inherit (List.suffix_cons c r)) a1 rest ha1
            rw [hval]
            intro hm
            rcases List.mem_cons.mp hm with hm | hm
            · exact hcl.head hm.symm
            · exact hrec hm

theorem contains_eq_false (u : Nat) (s : JSString) (h : u ∉ s) : s.contains u = false := by
  simpa using h

theorem mentionsAny_cons (u : Nat) (v : Value) (vs : List Value) :
    mentionsAny u (v :: vs) = false ↔ v.mentions u = false ∧ mentionsAny u vs = false := by
  simp [mentionsAny]

theorem mentionsProperty_cons (u : Nat) (k : JSString) (v : Value)
    (ps : List (JSString × Value)) :
    mentionsProperty u ((k, v) :: ps) = false ↔
      k.contains u = false ∧ v.mentions u = false ∧ mentionsProperty u ps = false := by
  simp [mentionsProperty, and_assoc]

theorem parseElements_clean (value : JSString → Parsed Value) (hv : Progresses value)
    (hc : Faithful value) :
    ∀ (k : Nat) (s : JSString) (vs : List Value) (rest : JSString), Clean s →
      parseElements value k s = .ok vs rest → mentionsAny apostrophe vs = false := by
  intro k
  induction k with
  | zero => intro s vs rest _ h; simp [parseElements] at h
  | succ k ih =>
    intro s vs rest hcl h
    unfold parseElements at h
    obtain ⟨v, r, hval, h⟩ := Parsed.bind_eq_ok _ _ _ _ h
    have hr := hv s v r hval
    have hvc := hc s v r hcl hval
    have hsk := skipWhiteSpace_suffix r
    split at h
    · simp at h
    · rename_i c rest1 heq
      rw [heq] at hsk
      have h1 : Advances rest1 s := ((Advances.cons c rest1).within hsk).trans hr
      split at h
      · obtain ⟨vs1, hvs1, hval1⟩ := Parsed.map_eq_ok _ _ _ _ h
        have := ih rest1 vs1 rest (hcl.inherit h1.1) hvs1
        rw [hval1]
        exact (mentionsAny_cons _ _ _).mpr ⟨hvc, this⟩
      · split at h
        · simp only [Parsed.ok.injEq] at h
          rw [← h.1]
          exact (mentionsAny_cons _ _ _).mpr ⟨hvc, rfl⟩
        · simp at h

theorem parseMembers_clean (value : JSString → Parsed Value) (hv : Progresses value)
    (hc : Faithful value) :
    ∀ (k : Nat) (s : JSString) (ms : List (JSString × Value)) (rest : JSString), Clean s →
      parseMembers value k s = .ok ms rest → mentionsProperty apostrophe ms = false := by
  intro k
  induction k with
  | zero => intro s ms rest _ h; simp [parseMembers] at h
  | succ k ih =>
    intro s ms rest hcl h
    unfold parseMembers at h
    have hs0 := skipWhiteSpace_suffix s
    split at h
    · simp at h
    · rename_i q r0 heq0
      rw [heq0] at hs0
      have hcl0 : Clean r0 := hcl.inherit ((List.suffix_cons q r0).trans hs0)
      split at h
      · obtain ⟨key, rest1, hkey, h⟩ := Parsed.bind_eq_ok _ _ _ _ h
        have hkc := contains_eq_false _ _
          (parseChars_clean _ r0 (le_refl _) hcl0 key rest1 hkey)
        have hcl1 : Clean rest1 :=
          hcl0.inherit (parseChars_advances _ r0 (le_refl _) key rest1 hkey).1
        have hs1 := skipWhiteSpace_suffix rest1
        split at h
        · simp at h
        · rename_i c rest2 heq1
          rw [heq1] at hs1
          have hcl2 : Clean rest2 := hcl1.inherit ((List.suffix_cons c rest2).trans hs1)
          split at h
          · obtain ⟨v, rest3, hval, h⟩ := Parsed.bind_eq_ok _ _ _ _ h
            have hvc := hc rest2 v rest3 hcl2 hval
            have hcl3 : Clean rest3 := hcl2.inherit (hv rest2 v rest3 hval).1
            have hs3 := skipWhiteSpace_suffix rest3
            split at h
            · simp at h
            · rename_i d rest4 heq3
              rw [heq3] at hs3
              have hcl4 : Clean rest4 := hcl3.inherit ((List.suffix_cons d rest4).trans hs3)
              split at h
              · obtain ⟨ms1, hms1, hval1⟩ := Parsed.map_eq_ok _ _ _ _ h
                have := ih rest4 ms1 rest hcl4 hms1
                rw [hval1]
                exact (mentionsProperty_cons _ _ _ _).mpr ⟨hkc, hvc, this⟩
              · split at h
                · simp only [Parsed.ok.injEq] at h
                  rw [← h.1]
                  exact (mentionsProperty_cons _ _ _ _).mpr ⟨hkc, hvc, rfl⟩
                · simp at h
          · simp at h
      · simp at h

theorem defineProperty_clean (u : Nat) (key : JSString) (v : Value)
    (hk : key.contains u = false) (hv : v.mentions u = false) :
    ∀ ps : List (JSString × Value), mentionsProperty u ps = false →
      mentionsProperty u (defineProperty ps key v) = false := by
  intro ps
  induction ps with
  | nil => intro _; exact (mentionsProperty_cons _ _ _ _).mpr ⟨hk, hv, rfl⟩
  | cons p ps ih =>
    intro h
    obtain ⟨k, w⟩ := p
    obtain ⟨h1, h2, h3⟩ := (mentionsProperty_cons _ _ _ _).mp h
    unfold defineProperty
    split
    · exact (mentionsProperty_cons _ _ _ _).mpr ⟨h1, hv, h3⟩
    · exact (mentionsProperty_cons _ _ _ _).mpr ⟨h1, h2, ih h3⟩

theorem foldl_defineProperty_clean (u : Nat) :
    ∀ (ms ps : List (JSString × Value)), mentionsProperty u ms = false →
      mentionsProperty u ps = false →
      mentionsProperty u (ms.foldl (fun ps m => defineProperty ps m.1 m.2) ps) = false := by
  intro ms
  induction ms with
  | nil => intro ps _ h; exact h
  | cons m ms ih =>
    intro ps hms hps
    obtain ⟨k, w⟩ := m
    obtain ⟨h1, h2, h3⟩ := (mentionsProperty_cons _ _ _ _).mp hms
    exact ih _ h3 (defineProperty_clean u k w h1 h2 ps hps)

theorem makeObject_clean (u : Nat) (ms : List (JSString × Value))
    (h : mentionsProperty u ms = false) : (makeObject ms).mentions u = false := by
  have := foldl_defineProperty_clean u ms [] h rfl
  simpa [makeObject, Value.mentions] using this

theorem parseValue_clean : ∀ n : Nat, Faithful (parseValue n) := by
  intro n
  induction n with
  | zero => intro s v rest _ h; simp [parseValue] at h
  | succ n ih =>
    intro s v rest hcl h
    unfold parseValue at h
    have hs0 := skipWhiteSpace_suffix s
    split at h
    · simp at h
    · rename_i c r0 heq0
      rw [heq0] at hs0
      have hcl0 : Clean r0 := hcl.inherit ((List.suffix_cons c r0).trans hs0)
      split at h
      · split at h
        · simp at h
        · split at h
          · simp only [Parsed.ok.injEq] at h
            rw [← h.1]; rfl
          · obtain ⟨ms, hms, hval⟩ := Parsed.map_eq_ok _ _ _ _ h
            rw [hval]
            exact makeObject_clean _ ms
              (parseMembers_clean _ (parseValue_advances n) ih n r0 ms rest hcl0 hms)
      · split at h
        · split at h
          · simp at h
          · split at h
            · simp only [Parsed.ok.injEq] at h
              rw [← h.1]; rfl
            · obtain ⟨vs, hvs, hval⟩ := Parsed.map_eq_ok _ _ _ _ h
              rw [hval]
              simpa [Value.mentions] using
                parseElements_clean _ (parseValue_advances n) ih n r0 vs rest hcl0 hvs
        · split at h
          · obtain ⟨a, ha, hval⟩ := Parsed.map_eq_ok _ _ _ _ h
            rw [hval]
            simpa [Value.mentions] using
              contains_eq_false _ _ (parseChars_clean _ r0 (le_refl _) hcl0 a rest ha)
          · split at h
            · obtain ⟨a, _, hval⟩ := Parsed.map_eq_ok _ _ _ _ h
              rw [hval]; rfl
            · exact (parseLiteral_advances _ v rest h).2

theorem JSONparse_clean (text : JSString) (v : Value) (hcl : Clean text)
    (h : JSONparse text = .ok v) : v.mentions apostrophe = false := by
  unfold JSONparse at h
  split at h
  · rename_i v1 rest hp
    split at h
    · simp only [Except.ok.injEq] at h
      rw [← h]
      exact parseValue_clean _ text v1 rest hcl hp
    · simp at h
  · simp at h

theorem dropWord_replaceQuotes (w : JSString) (hw : quotationMark ∉ w) :
    ∀ s : JSString, dropWord w s = none → dropWord w (replaceQuotes s) = none := by
  induction w with
  | nil => intro s h; simp [dropWord] at h
  | cons x w ih =>
    intro s h
    have hx : x ≠ quotationMark := fun e => hw (e ▸ List.mem_cons_self _ _)
    have hw1 : quotationMark ∉ w := fun m => hw (List.mem_cons_of_mem _ m)
    cases s with
    | nil => rfl
    | cons c r =>
      unfold dropWord at h
      have hmap : replaceQuotes (c :: r) = replaceUnit c :: replaceQuotes r := rfl
      rw [hmap]
      unfold dropWord
      by_cases hca : c = apostrophe
      · have hq : replaceUnit c = quotationMark := by simp [replaceUnit, hca]
        rw [hq, if_neg hx]
      · have hq : replaceUnit c = c := by simp [replaceUnit, hca]
        rw [hq]
        by_cases hxc : x = c
        · rw [if_pos hxc] at h ⊢
          exact ih hw1 r h
        · rw [if_neg hxc]

theorem occurs_replaceQuotes (w : JSString) (hw : quotationMark ∉ w) (hne : w ≠ []) :
    ∀ s : JSString, occurs w s = false → occurs w (replaceQuotes s) = false := by
  intro s
  induction s with
  | nil =>
    intro _
    cases w with
    | nil => exact absurd rfl hne
    | cons x w => rfl
  | cons c r ih =>
    intro h
    unfold occurs at h
    simp only [Bool.or_eq_false_iff] at h
    have hmap : replaceQuotes (c :: r) = replaceUnit c :: replaceQuotes r := rfl
    have hd : dropWord w (c :: r) = none := by
      cases hdw : dropWord w (c :: r) with
      | none => rfl
      | some x => simp [hdw] at h
    have hd1 := dropWord_replaceQuotes w hw (c :: r) hd
    rw [hmap] at hd1 ⊢
    unfold occurs
    simp only [Bool.or_eq_false_iff]
    exact ⟨by simp [hd1], ih h.2⟩

theorem replaceQuotes_clean (line : JSString) (h : occurs escapedApostrophe line = false) :
    Clean (replaceQuotes line) :=
  ⟨replaceQuotes_no_apostrophe line,
   occurs_replaceQuotes escapedApostrophe (by decide) (by decide) line h⟩

theorem envelope_injective (v w : Value) (h : envelope v = envelope w) : v = w := by
  simp only [envelope, Value.object.injEq, List.cons.injEq, Prod.mk.injEq, and_true,
    true_and] at h
  exact h

/-- C10, as the code has it: when the line is valid JSON, the payload it denotes has an
apostrophe in some string (a string value or a property name), and the escape sequence
`\u0027` does not occur in the line, the listener never forwards that payload: it throws,
or the payload it forwards holds no apostrophe at all. -/
theorem onMessage_corrupts {E : Type} (line : JSString) (v : Value)
    (_hv : JSONparse line = .ok v) (hm : v.mentions apostrophe = true)
    (he : occurs escapedApostrophe line = false) :
    (onMessage line : Completion E) ≠ ⟨[.send (envelope v)], none⟩ ∧
    (∀ m ∈ sent (onMessage line : Completion E).calls, m ≠ envelope v) ∧
    ((onMessage line : Completion E).thrown = some .SyntaxError ∨
      ∃ w, (onMessage line : Completion E).calls = [.send (envelope w)] ∧
        w.mentions apostrophe = false) := by
  have hcl := replaceQuotes_clean line he
  cases hp : JSONparse (replaceQuotes line) with
  | error e =>
    cases e
    rw [onMessage_error line _ hp]
    refine ⟨by simp, ?_, Or.inl rfl⟩
    intro m hmem
    simp [sent] at hmem
  | ok w =>
    have hw := JSONparse_clean _ w hcl hp
    have hne : w ≠ v := by
      intro heq
      rw [heq, hm] at hw
      exact Bool.noConfusion hw
    rw [onMessage_ok line w hp]
    refine ⟨?_, ?_, Or.inr ⟨w, rfl, hw⟩⟩
    · intro heq
      simp only [Completion.mk.injEq, List.cons.injEq, HostCall.send.injEq, and_true] at heq
      exact hne (envelope_injective w v heq)
    · intro m hmem
      simp only [sent, List.mem_singleton] at hmem
      rw [hmem]
      intro heq
      exact hne (envelope_injective w v heq)

theorem onMessage_corrupts_witness :
    JSONparse (utf16 "\x7b\"name\": \"it's\"\x7d")
      = .ok (.object [(utf16 "name", .string (utf16 "it's"))]) ∧
    (onMessage (utf16 "\x7b\"name\": \"it's\"\x7d") : Completion String)
      ≠ ⟨[.send (envelope (.object [(utf16 "name", .string (utf16 "it's"))]))], none⟩ :=
  ⟨rfl, (onMessage_corrupts (utf16 "\x7b\"name\": \"it's\"\x7d")
    (.object [(utf16 "name", .string (utf16 "it's"))]) rfl rfl rfl).1⟩

/-- C10 fails when the apostrophe is written as an escape: the line is valid JSON, the
payload it denotes has the string `it's`, the normalization leaves the line as it is, and
the listener forwards exactly that payload. -/
theorem onMessage_escaped_apostrophe :
    JSONparse (utf16 "\x7b\"name\": \"it\\u0027s\"\x7d")
      = .ok (.object [(utf16 "name", .string (utf16 "it's"))]) ∧
    (Value.object [(utf16 "name", .string (utf16 "it's"))]).mentions apostrophe = true ∧
    (onMessage (utf16 "\x7b\"name\": \"it\\u0027s\"\x7d") : Completion String)
      = ⟨[.send (envelope (.object [(utf16 "name", .string (utf16 "it's"))]))], none⟩ :=
  ⟨rfl, rfl, rfl⟩

/-! ## `JSON.parse`: the budget does not matter -/

theorem parseElements_stable (value value1 : JSString → Parsed Value) (hv : Progresses value) :
    ∀ (k k1 : Nat) (s : JSString), s.length < k → s.length < k1 →
      (∀ t : JSString, t.length ≤ s.length → value t = value1 t) →
      parseElements value k s = parseElements value1 k1 s := by
  intro k
  induction k with
  | zero => intro k1 s hk; simp at hk
  | succ k ih =>
    intro k1 s hk hk1 hag
    cases k1 with
    | zero => simp at hk1
    | succ k1 =>
      rw [parseElements, parseElements, ← hag s (le_refl _)]
      cases hval : value s with
      | syntaxError => rfl
      | outOfFuel => rfl
      | ok v r =>
        have hr := hv s v r hval
        have hsk := skipWhiteSpace_suffix r
        simp only [Parsed.bind]
        cases heq : skipWhiteSpace r with
        | nil => rfl
        | cons c rest1 =>
          rw [heq] at hsk
          have h1 : Advances rest1 s := ((Advances.cons c rest1).within hsk).trans hr
          simp only []
          rw [ih k1 rest1 (by have := h1.2; omega) (by have := h1.2; omega)
            (fun t ht => hag t (by have := h1.2; omega))]

theorem parseMembers_stable (value value1 : JSString → Parsed Value) (hv : Progresses value) :
    ∀ (k k1 : Nat) (s : JSString), s.length < k → s.length < k1 →
      (∀ t : JSString, t.length ≤ s.length → value t = value1 t) →
      parseMembers value k s = parseMembers value1 k1 s := by
  intro k
  induction k with
  | zero => intro k1 s hk; simp at hk
  | succ k ih =>
    intro k1 s hk hk1 hag
    cases k1 with
    | zero => simp at hk1
    | succ k1 =>
      rw [parseMembers, parseMembers]
      have hs0 := skipWhiteSpace_suffix s
      cases heq0 : skipWhiteSpace s with
      | nil => rfl
      | cons q r0 =>
        rw [heq0] at hs0
        simp only []
        by_cases hq : q = 34
        · rw [if_pos hq, if_pos hq]
          cases hkey : parseChars r0 with
          | syntaxError => rfl
          | outOfFuel => rfl
          | ok key rest1 =>
            have hk1a : Advances rest1 s :=
              ((parseChars_advances _ r0 (le_refl _) key rest1 hkey).trans
                (Advances.cons q r0)).within hs0
            have hs1 := skipWhiteSpace_suffix rest1
            simp only [Parsed.bind]
            cases heq1 : skipWhiteSpace rest1 with
            | nil => rfl
            | cons c rest2 =>
              rw [heq1] at hs1
              have hk2 : Advances rest2 s := ((Advances.cons c rest2).within hs1).trans hk1a
              simp only []
              by_cases hc : c = 58
              · rw [if_pos hc, if_pos hc, ← hag rest2 (by have := hk2.2; omega)]
                cases hval : value rest2 with
                | syntaxError => rfl
                | outOfFuel => rfl
                | ok v rest3 =>
                  have hk3 : Advances rest3 s := (hv rest2 v rest3 hval).trans hk2
                  have hs3 := skipWhiteSpace_suffix rest3
                  simp only []
                  cases heq3 : skipWhiteSpace rest3 with
                  | nil => rfl
                  | cons d rest4 =>
                    rw [heq3] at hs3
                    have hk4 : Advances rest4 s :=
                      ((Advances.cons d rest4).within hs3).trans hk3
                    simp only []
                    rw [ih k1 rest4 (by have := hk4.2; omega) (by have := hk4.2; omega)
                      (fun t ht => hag t (by have := hk4.2; omega))]
              · rw [if_neg hc, if_neg hc]
        · rw [if_neg hq, if_neg hq]

/-- The result of `parseValue` does not depend on the budget once it exceeds the length of
the input. -/
theorem parseValue_stable : ∀ (n m : Nat) (s : JSString), s.length < n → s.length < m →
    parseValue n s = parseValue m s := by
  intro n
  induction n with
  | zero => intro m s hn; simp at hn
  | succ n ih =>
    intro m s hn hm
    cases m with
    | zero => simp at hm
    | succ m =>
      rw [parseValue, parseValue]
      have hs0 := skipWhiteSpace_suffix s
      cases heq0 : skipWhiteSpace s with
      | nil => rfl
      | cons c r0 =>
        rw [heq0] at hs0
        have hc : Advances r0 s := (Advances.cons c r0).within hs0
        have hln : r0.length < n := by have := hc.2; omega
        have hlm : r0.length < m := by have := hc.2; omega
        simp only []
        rw [parseMembers_stable _ (parseValue m) (parseValue_advances n) n m r0 hln hlm
            (fun t ht => ih m t (by omega) (by omega)),
          parseElements_stable _ (parseValue m) (parseValue_advances n) n m r0 hln hlm
            (fun t ht => ih m t (by omega) (by omega))]

/-- The SyntaxError of `JSON.parse` is a syntax error of the text: the parse of the value
stopped on one, or code units other than white space follow the value; with any larger
budget the result is the same. -/
theorem JSONparse_error (text : JSString) (e : Exception) (h : JSONparse text = .error e) :
    (∀ n, text.length < n → parseValue n text = .syntaxError) ∨
    ∃ v c rest, (∀ n, text.length < n →
      ∃ r, parseValue n text = .ok v r ∧ skipWhiteSpace r = c :: rest) := by
  unfold JSONparse at h
  have hfuel := parseValue_fuel (text.length + 1) text (by omega)
  cases hp : parseValue (text.length + 1) text with
  | outOfFuel => exact absurd hp hfuel
  | syntaxError =>
    left
    intro n hn
    rw [parseValue_stable n (text.length + 1) text hn (by omega), hp]
  | ok v r =>
    right
    rw [hp] at h
    cases hs : skipWhiteSpace r with
    | nil => simp [hs] at h
    | cons c rest =>
      refine ⟨v, c, rest, fun n hn => ⟨r, ?_, hs⟩⟩
      rw [parseValue_stable n (text.length + 1) text hn (by omega), hp]

end EnviroLogger
